import Mathlib

/-!
Shallow embedding of `src/alchemlyb/preprocessing/subsampling.py` (functions
`_check_multiple_times`, `slicing`, `statistical_inefficiency`,
`equilibrium_detection`) together with theorems checking the module's
natural-language specification against it.

Modelling conventions.

* A DataFrame is a list of rows.  A row carries its outermost (time) index
  value, its lambda-state index value (`lam`; the possibly multi-level lambda
  part of the MultiIndex is modelled as a single rational key) and the list of
  numeric observable column values.  Times, lambda keys and observables are
  rationals.
* `data.sort_index()` is a stable lexicographic merge sort on `(time, lam)`
  (time is the outermost index level).
* `data.groupby(level=index_names)` with `index_names = names[1:]` yields, in
  ascending key order, the sub-lists of the sorted frame sharing one `lam`.
* Fallible pandas operations are modelled in `Except String`: `pd.concat` of
  an empty list raises `ValueError`, `.loc` with slice step 0 raises
  `ValueError`, `frame[label]` with a missing label (or `None`) raises
  `KeyError`, `.iloc[indices]` with an out-of-range position raises
  `IndexError`, and the duplicate-time `KeyError`s of the source are the
  corresponding `.error` values.
* The pymbar collaborators (`statisticalInefficiency`,
  `subsampleCorrelatedData`, `detectEquilibration`) are not part of this
  repository; the subsampler embeddings are parameterised over them.  Where a
  claim depends on the subsample-index routine itself, the definition
  `subsampleCorrelatedDataSpec` below is modelled from the spec.
* In the source, the line `if column:` of `statistical_inefficiency` is
  followed by the group loop at the same indentation with an empty body in
  between; the spec reads the group loop as the body of that conditional
  (the loop runs only when `column` is truthy), and the embedding follows
  that reading.
-/

namespace Subsampling

/-- One row of an alchemlyb DataFrame: outermost (time) index value,
lambda-state index value, and the numeric observable columns. -/
structure Row where
  time : ℚ
  lam : ℚ
  vals : List ℚ
deriving DecidableEq

/-- A DataFrame is an ordered collection of rows. -/
abbrev DF := List Row

/-- Placeholder row used only to give `List.getD` a default; every use is
guarded by a bounds check. -/
def dummyRow : Row := ⟨0, 0, []⟩

/-- Lexicographic order on the full MultiIndex `(time, lam)`, time outermost,
as used by `data.sort_index()`. -/
def lexLE (r s : Row) : Prop :=
  r.time < s.time ∨ (r.time = s.time ∧ r.lam ≤ s.lam)

instance : DecidableRel lexLE := fun r s =>
  inferInstanceAs (Decidable (r.time < s.time ∨ (r.time = s.time ∧ r.lam ≤ s.lam)))

instance : IsTotal Row lexLE :=
  ⟨fun r s => by
    unfold lexLE
    rcases lt_trichotomy r.time s.time with h | h | h
    · exact Or.inl (Or.inl h)
    · rcases le_total r.lam s.lam with h' | h'
      · exact Or.inl (Or.inr ⟨h, h'⟩)
      · exact Or.inr (Or.inr ⟨h.symm, h'⟩)
    · exact Or.inr (Or.inl h)⟩

instance : IsTrans Row lexLE :=
  ⟨fun r s t hrs hst => by
    unfold lexLE at *
    rcases hrs with h | ⟨he, hl⟩
    · rcases hst with h' | ⟨he', _⟩
      · exact Or.inl (h.trans h')
      · exact Or.inl (he' ▸ h)
    · rcases hst with h' | ⟨he', hl'⟩
      · exact Or.inl (he ▸ h')
      · exact Or.inr ⟨he.trans he', hl.trans hl'⟩⟩

/-- `data.sort_index()`: stable sort of the whole frame by `(time, lam)`. -/
def sortIndex (data : DF) : DF := data.insertionSort lexLE

/-- The ascending list of distinct lambda-state keys of a frame: the group
keys produced by `data.groupby(level=index_names)` (pandas groups sort their
keys). -/
def lamKeys (data : DF) : List ℚ :=
  ((data.map Row.lam).dedup).insertionSort (· ≤ ·)

/-- The rows of group `k`: the sub-frame of the sorted frame whose lambda
key is `k`. -/
def lamGroup (data : DF) (k : ℚ) : DF := data.filter (fun r => r.lam == k)

/-- Source `_check_multiple_times(data)`: whether any two rows of `data`
share a time value (`sort_index(0).reset_index(0).duplicated('time').any()`;
sorting does not change whether a duplicate exists). -/
def check_multiple_times (data : DF) : Bool :=
  !(decide (data.map Row.time).Nodup)

/-- Whether a row's time lies in the closed label range `[lower, upper]`;
an unset bound imposes no constraint, as in `.loc[lower:upper]`. -/
def inBounds (lower upper : Option ℚ) (r : Row) : Bool :=
  (match lower with
   | none => true
   | some l => decide (l ≤ r.time)) &&
  (match upper with
   | none => true
   | some u => decide (r.time ≤ u))

/-- Every `k`-th element of a list starting from the first, as the slice
step does positionally on the selected label range. -/
def takeEvery (k : ℕ) (l : List α) : List α :=
  (l.enum.filter (fun p => p.1 % k == 0)).map Prod.snd

/-- Error value for `pd.concat([])`. -/
def concatEmptyMsg : String := "ValueError: No objects to concatenate"

/-- Error value for a zero slice step. -/
def stepZeroMsg : String := "ValueError: slice step cannot be zero"

/-- Error value for the duplicate-time check in `slicing`. -/
def dupMsgSlicing : String := "KeyError: Duplicate time values found (slicing)"

/-- Error value for the duplicate-time check in `statistical_inefficiency`. -/
def dupMsgStatinef : String := "KeyError: Duplicate time values found (statistical inefficiency)"

/-- Error value for the duplicate-time check in `equilibrium_detection`. -/
def dupMsgEquil : String := "KeyError: Duplicate time values found (equilibrium detection)"

/-- Error value for selecting a missing column label (`frame[None]` or an
unknown label). -/
def keyErrColumn : String := "KeyError: column"

/-- Error value for `.iloc` with an out-of-range position. -/
def indexErrMsg : String := "IndexError: positional indexer out of bounds"

/-- The value computed by `group.loc[lower:upper:step]` on a group sorted by
time: keep the rows whose time lies in `[lower, upper]`, then take every
`step`-th of those. -/
def locSliceVal (lower upper : Option ℚ) (step : Option ℕ) (rows : DF) : DF :=
  takeEvery (step.getD 1) (rows.filter (inBounds lower upper))

/-- Source `group.loc[lower:upper:step]`: a zero step raises `ValueError`
as in pandas, otherwise the slice value is returned. -/
def locSlice (lower upper : Option ℚ) (step : Option ℕ) (rows : DF) :
    Except String DF :=
  if step = some 0 then .error stepZeroMsg
  else .ok (locSliceVal lower upper step rows)

/-- The body of the group loop of `slicing`: slice the group, then (unless
`force`) fail on duplicate time values in the sliced group. -/
def sliceGroup (lower upper : Option ℚ) (step : Option ℕ) (force : Bool)
    (group : DF) : Except String DF := do
  let group_s ← locSlice lower upper step group
  if !force && check_multiple_times group_s then .error dupMsgSlicing
  else pure group_s

/-- Sequential per-group loop: process the named groups in key order,
propagating the first error, and collect the per-group results. -/
def processGroups (f : ℚ → Except String α) : List ℚ → Except String (List α)
  | [] => .ok []
  | k :: ks => do
    let a ← f k
    let rest ← processGroups f ks
    pure (a :: rest)

/-- Source `slicing(data, lower, upper, step, force)`: sort the frame, slice
each lambda-state group on the time index, check each sliced group for
duplicate times (unless `force`), and concatenate the groups.  `pd.concat`
of no groups raises. -/
def slicing (data : DF) (lower upper : Option ℚ) (step : Option ℕ)
    (force : Bool) : Except String DF := do
  let sorted := sortIndex data
  let keys := lamKeys sorted
  let resdata ← processGroups
    (fun k => sliceGroup lower upper step force (lamGroup sorted k)) keys
  if resdata.isEmpty then .error concatEmptyMsg
  else pure resdata.flatten

/-- Source `group_s[column]`: the values of the selected observable column,
one per row.  A `None` label or a label missing from some row raises
`KeyError`. -/
def getColumn (rows : DF) (column : Option ℕ) : Except String (List ℚ) :=
  match column with
  | none => .error keyErrColumn
  | some c =>
    if rows.all (fun r => c < r.vals.length) then
      .ok (rows.map (fun r => r.vals.getD c 0))
    else .error keyErrColumn

/-- Source `rows.iloc[indices]` for a list of positions: fails if any
position is out of range, otherwise picks the rows at those positions in the
given order. -/
def ilocSelect (rows : DF) (indices : List ℕ) : Except String DF :=
  if indices.all (fun i => i < rows.length) then
    .ok (indices.map (fun i => rows.getD i dummyRow))
  else .error indexErrMsg

/-- The body of the group loop of `statistical_inefficiency`: pre-slice the
group via `slicing` (the source omits `force` there, so the inner call uses
`force=False`), check the UNSLICED group for duplicate times (as the source
does), compute the observable series of the sliced group, ask the
collaborator `statInefF` for the statistical inefficiency, ask `subIdxF` for
the subsample positions, and gather those rows.  Returns the surviving rows
and the computed inefficiency. -/
def si_process_group (statInefF : List ℚ → ℚ)
    (subIdxF : List ℚ → ℚ → Bool → List ℕ) (column : Option ℕ)
    (lower upper : Option ℚ) (step : Option ℕ) (conservative force : Bool)
    (group : DF) : Except String (DF × ℚ) := do
  let group_s ← slicing group lower upper step false
  if !force && check_multiple_times group then .error dupMsgStatinef
  else do
    let series ← getColumn group_s column
    let statinef := statInefF series
    let indices := subIdxF series statinef conservative
    let rows ← ilocSelect group_s indices
    pure (rows, statinef)

/-- Source `statistical_inefficiency(data, how, column, lower, upper, step,
conservative, return_calculated, force)`, parameterised over the pymbar
collaborators.  The `how` argument is accepted but never read by the source
body.  Following the source's control flow, the group loop is guarded by
`if column:`, so with `column` unset no group is processed and the final
`pd.concat` of an empty list raises.  The second component of the result is
the `calculated` record (`name -> statinef`) when `return_calculated` is
set. -/
def statistical_inefficiency (statInefF : List ℚ → ℚ)
    (subIdxF : List ℚ → ℚ → Bool → List ℕ) (data : DF) ( how : String)
    (column : Option ℕ) (lower upper : Option ℚ) (step : Option ℕ)
    (conservative return_calculated force : Bool) :
    Except String (DF × Option (List (ℚ × ℚ))) := do
  let data' := sortIndex data
  let keys := lamKeys data'
  let pairs ←
    if column.isSome then
      processGroups
        (fun k => do
          let r ← si_process_group statInefF subIdxF column lower upper step
            conservative force (lamGroup data' k)
          pure (k, r))
        keys
    else pure []
  let resdata := pairs.map (fun p => p.2.1)
  let calculated :=
    if return_calculated then some (pairs.map (fun p => (p.1, p.2.2)))
    else none
  if resdata.isEmpty then .error concatEmptyMsg
  else pure (resdata.flatten, calculated)

/-- The body of the group loop of `equilibrium_detection`: pre-slice the
group (inner `slicing` again with `force=False`), check the unsliced group
for duplicate times, compute the observable series, ask the collaborator
`detectEqF` for `(t, statinef, Neff_max)`, drop the rows before position
`t`, recompute the series of the truncated group, ask `subIdxF` for the
subsample positions, and gather those rows.  Returns the surviving rows and
the collaborator triple. -/
def ed_process_group (detectEqF : List ℚ → ℕ × ℚ × ℚ)
    (subIdxF : List ℚ → ℚ → Bool → List ℕ) (column : Option ℕ)
    (lower upper : Option ℚ) (step : Option ℕ) (conservative force : Bool)
    (group : DF) : Except String (DF × (ℕ × ℚ × ℚ)) := do
  let group_s ← slicing group lower upper step false
  if !force && check_multiple_times group then .error dupMsgEquil
  else do
    let series ← getColumn group_s column
    let res := detectEqF series
    let t := res.1
    let statinef := res.2.1
    let group_t := group_s.drop t
    let series_t ← getColumn group_t column
    let indices := subIdxF series_t statinef conservative
    let rows ← ilocSelect group_t indices
    pure (rows, res)

/-- The `calculated` record of `equilibrium_detection`: the entry lists for
the keys `'t'`, `'statinef'` and `'Neff_max'`.  As in the source, the value
stored under every one of the three keys is `statinef`. -/
structure EDCalc where
  tEntries : List (ℚ × ℚ)
  statinefEntries : List (ℚ × ℚ)
  neffEntries : List (ℚ × ℚ)
deriving DecidableEq

/-- Source `equilibrium_detection(data, how, column, lower, upper, step,
conservative, return_calculated, force)`, parameterised over the pymbar
collaborators.  The `how` argument is accepted but never read by the source
body.  Mirroring the source, the `calculated` record stores the `statinef`
value under all three of its keys (`calculated['t'][name] = statinef`,
`calculated['statinef'][name] = statinef`,
`calculated['Neff_max'][name] = statinef`). -/
def equilibrium_detection (detectEqF : List ℚ → ℕ × ℚ × ℚ)
    (subIdxF : List ℚ → ℚ → Bool → List ℕ) (data : DF) ( how : String)
    (column : Option ℕ) (lower upper : Option ℚ) (step : Option ℕ)
    (conservative return_calculated force : Bool) :
    Except String (DF × Option EDCalc) := do
  let data' := sortIndex data
  let keys := lamKeys data'
  let triples ← processGroups
    (fun k => do
      let r ← ed_process_group detectEqF subIdxF column lower upper step
        conservative force (lamGroup data' k)
      pure (k, r))
    keys
  let resdata := triples.map (fun p => p.2.1)
  let calculated :=
    if return_calculated then
      some (EDCalc.mk
        (triples.map (fun p => (p.1, p.2.2.2.1)))
        (triples.map (fun p => (p.1, p.2.2.2.1)))
        (triples.map (fun p => (p.1, p.2.2.2.1))))
    else none
  if resdata.isEmpty then .error concatEmptyMsg
  else pure (resdata.flatten, calculated)

/-- Rounding to the nearest integer, halves up. -/
def rnd (q : ℚ) : ℤ := ⌊q + 1 / 2⌋

/-- Modelled from the spec: the subsample-index routine of the external
correlation-analysis collaborator (`pymbar.timeseries.subsampleCorrelatedData`,
not part of this repository).  Per the spec, `conservative = true` rounds
`g` up to an integer stride and takes uniformly spaced positions
(`range(0, N, ceil(g))`), while `conservative = false` takes the
non-uniform fractional-stride positions `round(n * g)` for `n = 0, 1, ...`
while they stay below `N`, dropping adjacent duplicates.  The collaborator's
contract has `g ≥ 1`. -/
def subsampleIndicesSpec (N : ℕ) (g : ℚ) (conservative : Bool) : List ℕ :=
  if conservative then
    let stride := (⌈g⌉).toNat
    (List.range ((N + stride - 1) / stride)).map (fun i => i * stride)
  else
    ((((List.range N).map (fun (n : ℕ) => (rnd ((n : ℚ) * g)).toNat)).filter
      (fun t => t < N)).destutter (· ≠ ·))

/-- Modelled from the spec: the collaborator's subsample-index routine
applied to an observable series, `N` being the series length. -/
def subsampleCorrelatedDataSpec (series : List ℚ) (g : ℚ)
    (conservative : Bool) : List ℕ :=
  subsampleIndicesSpec series.length g conservative

/-- The value computed by the group loop body of `statistical_inefficiency`
on one group when it succeeds: the surviving rows and the inefficiency
estimate (see `si_process_group`; success forces exactly these values). -/
def siGroupVal (statInefF : List ℚ → ℚ)
    (subIdxF : List ℚ → ℚ → Bool → List ℕ) (c : ℕ)
    (lower upper : Option ℚ) (step : Option ℕ) (conservative : Bool)
    (g : DF) : DF × ℚ :=
  let gs := locSliceVal lower upper step g
  let series := gs.map (fun r => r.vals.getD c 0)
  let statinef := statInefF series
  let indices := subIdxF series statinef conservative
  (indices.map (fun i => gs.getD i dummyRow), statinef)

/-- The value computed by the group loop body of `equilibrium_detection` on
one group when it succeeds (see `ed_process_group`). -/
def edGroupVal (detectEqF : List ℚ → ℕ × ℚ × ℚ)
    (subIdxF : List ℚ → ℚ → Bool → List ℕ) (c : ℕ)
    (lower upper : Option ℚ) (step : Option ℕ) (conservative : Bool)
    (g : DF) : DF × (ℕ × ℚ × ℚ) :=
  let gs := locSliceVal lower upper step g
  let series := gs.map (fun r => r.vals.getD c 0)
  let res := detectEqF series
  let group_t := gs.drop res.1
  let series_t := group_t.map (fun r => r.vals.getD c 0)
  let indices := subIdxF series_t res.2.1 conservative
  (indices.map (fun i => group_t.getD i dummyRow), res)

/-- Group-major order on rows: ascending lambda-state key, and ascending
time within one key. -/
def lamTimeLE (r s : Row) : Prop :=
  r.lam < s.lam ∨ (r.lam = s.lam ∧ r.time ≤ s.time)

/-- A two-row single-group frame with a duplicated time stamp. -/
def dfDup : DF := [⟨0, 0, [1]⟩, ⟨0, 0, [2]⟩]

/-- A three-row single-group frame with distinct time stamps. -/
def dfPlain : DF := [⟨0, 0, [1]⟩, ⟨1, 0, [2]⟩, ⟨2, 0, [3]⟩]

/-- A two-row single-group frame whose times all lie below 10. -/
def dfLow : DF := [⟨1, 0, [5]⟩, ⟨2, 0, [6]⟩]

/-- A two-group frame with interleaved times: sorted by the full index it
alternates between the groups. -/
def dfInter : DF := [⟨0, 0, [1]⟩, ⟨0, 1, [2]⟩, ⟨1, 0, [3]⟩, ⟨1, 1, [4]⟩]

/-- A second two-group frame with interleaved times (distinct values from
`dfInter`). -/
def dfInter2 : DF := [⟨5, 1, [1]⟩, ⟨5, 2, [2]⟩, ⟨6, 1, [3]⟩, ⟨6, 2, [4]⟩]

/-- The group-major rearrangement of a frame: the sorted frame's groups,
in ascending key order, concatenated. -/
def groupMajor (data : DF) : DF :=
  ((lamKeys (sortIndex data)).map (fun k => lamGroup (sortIndex data) k)).flatten

end Subsampling

namespace Subsampling

/-- Inversion of a successful bind in the `Except String` monad. -/
theorem bind_ok {α β : Type} {x : Except String α} {f : α → Except String β}
    {b : β} : x >>= f = .ok b ↔ ∃ a, x = .ok a ∧ f a = .ok b := by
  cases x <;> simp [Bind.bind, Except.bind]

/-- Taking every first element is the identity. -/
theorem takeEvery_one (l : List α) : takeEvery 1 l = l := by
  unfold takeEvery
  have h : l.enum.filter (fun p => p.1 % 1 == 0) = l.enum :=
    List.filter_eq_self.2 (fun p _ => by simp [Nat.mod_one])
  rw [h, List.enum_map_snd]

/-- Taking every `k`-th element yields a sublist. -/
theorem takeEvery_sublist (k : ℕ) (l : List α) : List.Sublist (takeEvery k l) l := by
  unfold takeEvery
  have h := (List.filter_sublist (p := fun p : ℕ × α => p.1 % k == 0) l.enum).map Prod.snd
  rwa [List.enum_map_snd] at h

/-- A successful `.loc` slice returns a sublist of the group. -/
theorem locSlice_ok_sublist {lower upper : Option ℚ} {step : Option ℕ}
    {rows out : DF} (h : locSlice lower upper step rows = .ok out) :
    List.Sublist out rows := by
  unfold locSlice at h
  split at h
  · simp at h
  · rw [Except.ok.injEq] at h
    exact h ▸ (takeEvery_sublist _ _).trans (List.filter_sublist _)

/-- An unbounded `.loc` slice value is the identity. -/
theorem locSliceVal_none (rows : DF) : locSliceVal none none none rows = rows := by
  unfold locSliceVal
  rw [show (none : Option ℕ).getD 1 = 1 from rfl, takeEvery_one]
  exact List.filter_eq_self.2 (fun r _ => by simp [inBounds])

/-- An unbounded `.loc` slice is the identity. -/
theorem locSlice_none (rows : DF) : locSlice none none none rows = .ok rows := by
  unfold locSlice
  rw [if_neg (by simp : ¬ (none : Option ℕ) = some 0), locSliceVal_none]

/-- `check_multiple_times` succeeds exactly on frames with pairwise distinct
times. -/
theorem check_multiple_times_eq_false {l : DF} :
    check_multiple_times l = false ↔ (l.map Row.time).Nodup := by
  unfold check_multiple_times
  simp

/-- A successful `sliceGroup` returns a sublist of the group. -/
theorem sliceGroup_ok_sublist {lower upper : Option ℚ} {step : Option ℕ}
    {force : Bool} {g out : DF}
    (h : sliceGroup lower upper step force g = .ok out) : List.Sublist out g := by
  unfold sliceGroup at h
  rw [bind_ok] at h
  obtain ⟨gs, hls, hc⟩ := h
  have hsub := locSlice_ok_sublist hls
  split at hc
  · simp at hc
  · rw [show (pure gs : Except String DF) = .ok gs from rfl, Except.ok.injEq] at hc
    exact hc ▸ hsub

/-- A `sliceGroup` that succeeds with `force = false` returns a group with
pairwise distinct times. -/
theorem sliceGroup_ok_nodup {lower upper : Option ℚ} {step : Option ℕ}
    {g out : DF} (h : sliceGroup lower upper step false g = .ok out) :
    (out.map Row.time).Nodup := by
  unfold sliceGroup at h
  rw [bind_ok] at h
  obtain ⟨gs, _, hc⟩ := h
  split at hc
  · simp at hc
  · rw [show (pure gs : Except String DF) = .ok gs from rfl, Except.ok.injEq] at hc
    subst hc
    rename_i hcheck
    rw [Bool.not_eq_true, Bool.and_eq_false_iff] at hcheck
    rcases hcheck with h' | h'
    · simp at h'
    · exact check_multiple_times_eq_false.1 h'

/-- Membership in a lambda-state group. -/
theorem mem_lamGroup {data : DF} {k : ℚ} {r : Row} :
    r ∈ lamGroup data k ↔ r ∈ data ∧ r.lam = k := by
  unfold lamGroup
  simp [List.mem_filter]

/-- A lambda-state group is a sublist of the frame. -/
theorem lamGroup_sublist (data : DF) (k : ℚ) : List.Sublist (lamGroup data k) data :=
  List.filter_sublist _

/-- The group keys are exactly the lambda values occurring in the frame. -/
theorem mem_lamKeys {data : DF} {k : ℚ} :
    k ∈ lamKeys data ↔ ∃ r ∈ data, r.lam = k := by
  unfold lamKeys
  simp [List.mem_insertionSort, List.mem_dedup]

/-- The group keys are pairwise distinct. -/
theorem lamKeys_nodup (data : DF) : (lamKeys data).Nodup := by
  unfold lamKeys
  exact (List.perm_insertionSort _ _).nodup_iff.2 (List.nodup_dedup _)

/-- The group keys are in ascending order. -/
theorem lamKeys_sorted (data : DF) : (lamKeys data).Sorted (· ≤ ·) :=
  List.sorted_insertionSort _ _

/-- `sort_index` permutes the frame. -/
theorem sortIndex_perm (data : DF) : List.Perm (sortIndex data) data :=
  List.perm_insertionSort _ _

/-- `sort_index` sorts by the full index. -/
theorem sortIndex_sorted (data : DF) : (sortIndex data).Sorted lexLE :=
  List.sorted_insertionSort _ _

/-- Sorting an already sorted frame changes nothing. -/
theorem sortIndex_eq_of_sorted {data : DF} (h : data.Sorted lexLE) :
    sortIndex data = data :=
  h.insertionSort_eq

/-- Concatenating the groups of every key, each key once, permutes the
frame. -/
theorem flatten_lamGroups_perm :
    ∀ (keys : List ℚ) (l : DF), keys.Nodup → (∀ r ∈ l, r.lam ∈ keys) →
      List.Perm ((keys.map (fun k => lamGroup l k)).flatten) l := by
  intro keys
  induction keys with
  | nil =>
    intro l _ hmem
    have : l = [] := by
      cases l with
      | nil => rfl
      | cons a l' => exact absurd (hmem a (List.mem_cons_self a l')) (by simp)
    simp [this]
  | cons k ks ih =>
    intro l hnd hmem
    have hknotin : k ∉ ks := (List.nodup_cons.1 hnd).1
    have hndk : ks.Nodup := (List.nodup_cons.1 hnd).2
    simp only [List.map_cons, List.flatten_cons]
    have hng : ∀ kj ∈ ks,
        lamGroup l kj = lamGroup (l.filter (fun r => !(r.lam == k))) kj := by
      intro kj hkj
      unfold lamGroup
      rw [List.filter_filter]
      refine (List.filter_congr ?_).symm
      intro r _
      rcases h : (r.lam == kj) with _ | _
      · simp
      · have : r.lam = kj := by simpa using h
        have : ¬ (r.lam == k) = true := by
          simp only [beq_iff_eq, this]
          intro hh
          exact hknotin (hh ▸ hkj)
        simp [h, this]
    have hmap : ks.map (fun kj => lamGroup l kj) =
        ks.map (fun kj => lamGroup (l.filter (fun r => !(r.lam == k))) kj) :=
      List.map_congr_left hng
    rw [hmap]
    have ih' := ih (l.filter (fun r => !(r.lam == k))) hndk ?_
    · exact (List.Perm.append_left _ ih').trans (List.filter_append_perm _ l)
    · intro r hr
      rw [List.mem_filter] at hr
      have := hmem r hr.1
      rw [List.mem_cons] at this
      rcases this with h | h
      · exfalso
        have : (r.lam == k) = true := by simp [h]
        simp [this] at hr
      · exact h

/-- Rows of a group all carry the group's key. -/
theorem lamGroup_lam_eq {data : DF} {k : ℚ} {r : Row} (h : r ∈ lamGroup data k) :
    r.lam = k := (mem_lamGroup.1 h).2

/-- Within one group of a sorted frame, times are ascending. -/
theorem lamGroup_time_sorted {data : DF} (h : data.Sorted lexLE) (k : ℚ) :
    (lamGroup data k).Pairwise (fun r s => r.time ≤ s.time) := by
  have hp : (lamGroup data k).Pairwise lexLE :=
    (h : data.Pairwise lexLE).sublist (lamGroup_sublist data k)
  refine hp.imp_of_mem ?_
  intro r s hr hs hrs
  rcases hrs with h' | ⟨h', _⟩
  · exact le_of_lt h'
  · exact le_of_eq h'

/-- Ascending times plus pairwise distinct times give strictly ascending
times. -/
theorem pairwise_time_lt {g : DF}
    (hle : g.Pairwise (fun r s => r.time ≤ s.time))
    (hnd : (g.map Row.time).Nodup) :
    g.Pairwise (fun r s => r.time < s.time) := by
  have hne : g.Pairwise (fun r s => r.time ≠ s.time) := by
    rw [List.Nodup, List.pairwise_map] at hnd
    exact hnd
  exact (hle.and hne).imp (fun h => lt_of_le_of_ne h.1 h.2)

/-- Deduplicating a nonempty constant list yields the singleton. -/
theorem dedup_const {k : ℚ} :
    ∀ {l : List ℚ}, l ≠ [] → (∀ x ∈ l, x = k) → l.dedup = [k] := by
  intro l
  induction l with
  | nil => intro h; exact absurd rfl h
  | cons a l' ih =>
    intro _ hall
    have ha : a = k := hall a (List.mem_cons_self a l')
    cases l' with
    | nil => simp [ha]
    | cons b l'' =>
      have hl' : (b :: l'').dedup = [k] :=
        ih (by simp) (fun x hx => hall x (List.mem_cons_of_mem a hx))
      have hb : b = k := hall b (by simp)
      have hmem : a ∈ b :: l'' := by
        rw [ha, ← hb]
        exact List.mem_cons_self b l''
      rw [List.dedup_cons_of_mem hmem, hl']

/-- A nonempty constant-lambda frame has the single group key. -/
theorem lamKeys_const {g : DF} {k : ℚ} (hne : g ≠ [])
    (hall : ∀ r ∈ g, r.lam = k) : lamKeys g = [k] := by
  unfold lamKeys
  rw [dedup_const (by simpa using hne) (by
    intro x hx
    rw [List.mem_map] at hx
    obtain ⟨r, hr, hrx⟩ := hx
    exact hrx ▸ hall r hr)]
  rfl

/-- A constant-lambda frame is its own single group. -/
theorem lamGroup_self {g : DF} {k : ℚ} (hall : ∀ r ∈ g, r.lam = k) :
    lamGroup g k = g :=
  List.filter_eq_self.2 (fun r hr => by simp [hall r hr])

/-- `processGroups` succeeds exactly when each group succeeds, collecting
the results in order. -/
theorem processGroups_ok_iff {α : Type} {f : ℚ → Except String α} :
    ∀ {ks : List ℚ} {as : List α},
      processGroups f ks = .ok as ↔
        List.Forall₂ (fun k a => f k = .ok a) ks as := by
  intro ks
  induction ks with
  | nil =>
    intro as
    constructor
    · intro h
      rw [show processGroups f [] = .ok [] from rfl, Except.ok.injEq] at h
      rw [← h]
      exact List.Forall₂.nil
    · intro h
      rw [List.forall₂_nil_left_iff] at h
      rw [h]
      rfl
  | cons k ks' ih =>
    intro as
    constructor
    · intro h
      unfold processGroups at h
      rw [bind_ok] at h
      obtain ⟨a, ha, h⟩ := h
      rw [bind_ok] at h
      obtain ⟨rest, hrest, h⟩ := h
      rw [show (pure (a :: rest) : Except String (List α)) = .ok (a :: rest) from rfl,
        Except.ok.injEq] at h
      rw [← h]
      exact List.Forall₂.cons ha (ih.1 hrest)
    · intro h
      rw [List.forall₂_cons_left_iff] at h
      obtain ⟨a, rest, ha, hrest, h⟩ := h
      subst h
      unfold processGroups
      rw [ha, ih.2 hrest]
      rfl

/-- If every group is processed successfully, `processGroups` maps. -/
theorem processGroups_map {α : Type} {f : ℚ → Except String α} {g : ℚ → α}
    {ks : List ℚ} (h : ∀ k ∈ ks, f k = .ok (g k)) :
    processGroups f ks = .ok (ks.map g) := by
  induction ks with
  | nil => rfl
  | cons k ks' ih =>
    unfold processGroups
    rw [h k (List.mem_cons_self k ks'), ih (fun k' hk' => h k' (List.mem_cons_of_mem k hk'))]
    rfl

/-- An unbounded `sliceGroup` on a duplicate-free group is the identity. -/
theorem sliceGroup_none {g : DF} (hnd : (g.map Row.time).Nodup) :
    sliceGroup none none none false g = .ok g := by
  unfold sliceGroup
  rw [locSlice_none]
  have hc : check_multiple_times g = false := check_multiple_times_eq_false.2 hnd
  show (if !false && check_multiple_times g then Except.error dupMsgSlicing
    else pure g) = Except.ok g
  rw [hc]
  rfl

/-- A nonempty frame has at least one group key. -/
theorem lamKeys_ne_nil {data : DF} (hne : data ≠ []) : lamKeys data ≠ [] := by
  obtain ⟨r, hr⟩ := List.exists_mem_of_ne_nil data hne
  exact List.ne_nil_of_mem (mem_lamKeys.2 ⟨r, hr, rfl⟩)

/-- Unbounded, unforced `slicing` on a frame whose groups have pairwise
distinct times returns the group-major rearrangement of the frame. -/
theorem slicing_none_eq {data : DF} (hne : data ≠ [])
    (hu : ∀ k ∈ lamKeys (sortIndex data),
      ((lamGroup (sortIndex data) k).map Row.time).Nodup) :
    slicing data none none none false = .ok (groupMajor data) := by
  unfold groupMajor
  have hpg : processGroups
      (fun k => sliceGroup none none none false (lamGroup (sortIndex data) k))
      (lamKeys (sortIndex data)) =
      .ok ((lamKeys (sortIndex data)).map (fun k => lamGroup (sortIndex data) k)) :=
    processGroups_map (fun k hk => sliceGroup_none (hu k hk))
  show (processGroups
      (fun k => sliceGroup none none none false (lamGroup (sortIndex data) k))
      (lamKeys (sortIndex data)) >>= fun resdata =>
        if resdata.isEmpty = true then Except.error concatEmptyMsg
        else pure resdata.flatten) =
    Except.ok ((lamKeys (sortIndex data)).map (fun k => lamGroup (sortIndex data) k)).flatten
  rw [hpg]
  have hsne : sortIndex data ≠ [] := by
    intro h
    apply hne
    have hp := sortIndex_perm data
    rw [h] at hp
    exact hp.symm.eq_nil
  have hkeys : lamKeys (sortIndex data) ≠ [] := lamKeys_ne_nil hsne
  show (if ((lamKeys (sortIndex data)).map (fun k => lamGroup (sortIndex data) k)).isEmpty = true
      then Except.error concatEmptyMsg
      else pure ((lamKeys (sortIndex data)).map (fun k => lamGroup (sortIndex data) k)).flatten) =
    Except.ok ((lamKeys (sortIndex data)).map (fun k => lamGroup (sortIndex data) k)).flatten
  rw [if_neg]
  · rfl
  · simp [hkeys]

/-- The group-major rearrangement permutes the frame. -/
theorem groupMajor_perm (data : DF) : List.Perm (groupMajor data) data := by
  unfold groupMajor
  exact (flatten_lamGroups_perm _ _ (lamKeys_nodup _)
    (fun r hr => mem_lamKeys.2 ⟨r, hr, rfl⟩)).trans (sortIndex_perm data)

/-- The group keys are strictly ascending. -/
theorem lamKeys_pairwise_lt (data : DF) : (lamKeys data).Pairwise (· < ·) := by
  have h1 : (lamKeys data).Pairwise (· ≤ ·) := lamKeys_sorted data
  have h2 : (lamKeys data).Pairwise (· ≠ ·) := lamKeys_nodup data
  exact (h1.and h2).imp (fun h => lt_of_le_of_ne h.1 h.2)

/-- The group-major rearrangement is ordered group-major: ascending lambda
key, ascending time within one key. -/
theorem groupMajor_pairwise (data : DF) : (groupMajor data).Pairwise lamTimeLE := by
  unfold groupMajor
  rw [List.pairwise_flatten]
  constructor
  · intro l hl
    rw [List.mem_map] at hl
    obtain ⟨k, _, rfl⟩ := hl
    refine (lamGroup_time_sorted (sortIndex_sorted data) k).imp_of_mem ?_
    intro r s hr hs hrs
    exact Or.inr ⟨(lamGroup_lam_eq hr).trans (lamGroup_lam_eq hs).symm, hrs⟩
  · rw [List.pairwise_map]
    refine (lamKeys_pairwise_lt _).imp_of_mem ?_
    intro k₁ k₂ _ _ hlt a ha b hb
    exact Or.inl (by rw [lamGroup_lam_eq ha, lamGroup_lam_eq hb]; exact hlt)

/-- A successful `.loc` slice is the slice value, and the step was not
zero. -/
theorem locSlice_ok_elim {lower upper : Option ℚ} {step : Option ℕ}
    {rows out : DF} (h : locSlice lower upper step rows = .ok out) :
    out = locSliceVal lower upper step rows ∧ step ≠ some 0 := by
  unfold locSlice at h
  split at h
  · simp at h
  · rename_i hstep
    exact ⟨(Except.ok.inj h).symm, hstep⟩

/-- Inversion of a successful `sliceGroup`. -/
theorem sliceGroup_ok_elim {lower upper : Option ℚ} {step : Option ℕ}
    {force : Bool} {g out : DF}
    (h : sliceGroup lower upper step force g = .ok out) :
    out = locSliceVal lower upper step g ∧ step ≠ some 0 ∧
      (force = true ∨ check_multiple_times (locSliceVal lower upper step g) = false) := by
  unfold sliceGroup at h
  rw [bind_ok] at h
  obtain ⟨gs, hls, hc⟩ := h
  obtain ⟨hval, hstep⟩ := locSlice_ok_elim hls
  subst hval
  split at hc
  · simp at hc
  · rename_i hcheck
    have hout : locSliceVal lower upper step g = out := Except.ok.inj hc
    rw [Bool.not_eq_true, Bool.and_eq_false_iff] at hcheck
    refine ⟨hout.symm, hstep, ?_⟩
    rcases hcheck with h' | h'
    · exact Or.inl (by simpa using h')
    · exact Or.inr h'

/-- Construction of a successful `sliceGroup`. -/
theorem sliceGroup_ok_intro {lower upper : Option ℚ} {step : Option ℕ}
    {force : Bool} {g : DF} (hstep : step ≠ some 0)
    (hok : force = true ∨ check_multiple_times (locSliceVal lower upper step g) = false) :
    sliceGroup lower upper step force g = .ok (locSliceVal lower upper step g) := by
  unfold sliceGroup locSlice
  rw [if_neg hstep]
  show (if !force && check_multiple_times (locSliceVal lower upper step g)
      then Except.error dupMsgSlicing
      else pure (locSliceVal lower upper step g)) = _
  rcases hok with h | h
  · rw [h]
    rfl
  · rw [h, Bool.and_false]
    rfl

/-- On a nonempty sorted constant-lambda frame, `slicing` reduces to the
single `sliceGroup` call. -/
theorem slicing_group_eq {g : DF} {k : ℚ} (hne : g ≠ [])
    (hs : g.Pairwise lexLE) (hall : ∀ r ∈ g, r.lam = k)
    (lower upper : Option ℚ) (step : Option ℕ) :
    slicing g lower upper step false = sliceGroup lower upper step false g := by
  have h1 : sortIndex g = g := sortIndex_eq_of_sorted hs
  have h2 : lamKeys g = [k] := lamKeys_const hne hall
  show (processGroups
      (fun kk => sliceGroup lower upper step false (lamGroup (sortIndex g) kk))
      (lamKeys (sortIndex g)) >>= fun resdata =>
        if resdata.isEmpty = true then Except.error concatEmptyMsg
        else pure resdata.flatten) = sliceGroup lower upper step false g
  rw [h1, h2]
  have h3 : lamGroup g k = g := lamGroup_self hall
  show ((sliceGroup lower upper step false (lamGroup g k) >>= fun a =>
      processGroups (fun kk => sliceGroup lower upper step false (lamGroup g kk)) [] >>=
        fun rest => pure (a :: rest)) >>= fun resdata =>
        if resdata.isEmpty = true then Except.error concatEmptyMsg
        else pure resdata.flatten) = sliceGroup lower upper step false g
  rw [h3]
  cases hsg : sliceGroup lower upper step false g with
  | error e => rfl
  | ok a =>
    show Except.ok (([a] : List DF).flatten) = Except.ok a
    rw [show ([a] : List DF).flatten = a by simp]

/-- Inversion of a successful `.iloc` selection. -/
theorem ilocSelect_ok_elim {rows out : DF} {indices : List ℕ}
    (h : ilocSelect rows indices = .ok out) :
    out = indices.map (fun i => rows.getD i dummyRow) ∧
      ∀ i ∈ indices, i < rows.length := by
  unfold ilocSelect at h
  split at h
  · rename_i hall
    rw [List.all_eq_true] at hall
    exact ⟨(Except.ok.inj h).symm, fun i hi => by simpa using hall i hi⟩
  · simp at h

/-- Inversion of a successful column selection. -/
theorem getColumn_ok_elim {rows : DF} {c : ℕ} {series : List ℚ}
    (h : getColumn rows (some c) = .ok series) :
    series = rows.map (fun r => r.vals.getD c 0) := by
  have h' : (if rows.all (fun r => c < r.vals.length) then
      Except.ok (rows.map (fun r => r.vals.getD c 0))
      else Except.error keyErrColumn) = Except.ok series := h
  split at h'
  · exact (Except.ok.inj h').symm
  · simp at h'

/-- A frame sorted on the full index has ascending times. -/
theorem pairwise_time_le_of_sorted {l : DF} (h : l.Pairwise lexLE) :
    l.Pairwise (fun r s => r.time ≤ s.time) :=
  h.imp (fun hrs => hrs.elim (fun h' => le_of_lt h') (fun h' => le_of_eq h'.1))

/-- Inversion of a successful `si_process_group`. -/
theorem si_group_ok_elim {F : List ℚ → ℚ} {G : List ℚ → ℚ → Bool → List ℕ}
    {c : ℕ} {lower upper : Option ℚ} {step : Option ℕ} {cons force : Bool}
    {g : DF} {pr : DF × ℚ}
    (h : si_process_group F G (some c) lower upper step cons force g = .ok pr) :
    ∃ gs, slicing g lower upper step false = .ok gs ∧
      getColumn gs (some c) = .ok (gs.map (fun r => r.vals.getD c 0)) ∧
      ilocSelect gs (G (gs.map (fun r => r.vals.getD c 0))
        (F (gs.map (fun r => r.vals.getD c 0))) cons) = .ok pr.1 ∧
      pr.2 = F (gs.map (fun r => r.vals.getD c 0)) := by
  unfold si_process_group at h
  rw [bind_ok] at h
  obtain ⟨gs, hsl, h⟩ := h
  split at h
  · simp at h
  · rw [bind_ok] at h
    obtain ⟨series, hgc, h⟩ := h
    have hser := getColumn_ok_elim hgc
    subst hser
    rw [bind_ok] at h
    obtain ⟨rows, hil, h⟩ := h
    have hpr : (rows, F (gs.map (fun r => r.vals.getD c 0))) = pr := Except.ok.inj h
    refine ⟨gs, hsl, hgc, ?_, ?_⟩
    · rw [← hpr]
      exact hil
    · rw [← hpr]

/-- On a nonempty sorted constant-lambda group, a successful
`si_process_group` computes exactly `siGroupVal`, and the group's
`sliceGroup` succeeds. -/
theorem si_group_ok_val {F : List ℚ → ℚ} {G : List ℚ → ℚ → Bool → List ℕ}
    {c : ℕ} {lower upper : Option ℚ} {step : Option ℕ} {cons force : Bool}
    {g : DF} {pr : DF × ℚ} {k : ℚ} (hne : g ≠ []) (hs : g.Pairwise lexLE)
    (hall : ∀ r ∈ g, r.lam = k)
    (h : si_process_group F G (some c) lower upper step cons force g = .ok pr) :
    pr = siGroupVal F G c lower upper step cons g ∧
      sliceGroup lower upper step false g = .ok (locSliceVal lower upper step g) := by
  obtain ⟨gs, hsl, _, hil, hst⟩ := si_group_ok_elim h
  rw [slicing_group_eq hne hs hall] at hsl
  obtain ⟨hval, _, _⟩ := sliceGroup_ok_elim hsl
  subst hval
  obtain ⟨hrows, _⟩ := ilocSelect_ok_elim hil
  refine ⟨?_, hsl⟩
  have hpr : pr = (pr.1, pr.2) := rfl
  rw [hpr, hrows, hst]
  rfl

/-- A `Forall₂` gives, for each left element, a related right element. -/
theorem forall₂_mem_left {α : Type} {R : ℚ → α → Prop} {ks : List ℚ}
    {ps : List α} (h : List.Forall₂ R ks ps) : ∀ k ∈ ks, ∃ p, R k p := by
  induction h with
  | nil =>
    intro k hk
    simp at hk
  | cons hr _ ih =>
    intro k hk
    rcases List.mem_cons.1 hk with rfl | hk'
    · exact ⟨_, hr⟩
    · exact ih k hk'

/-- A `Forall₂` of successful calls with deterministic values is a map. -/
theorem forall₂_ok_eq_map {α : Type} {f : ℚ → Except String α} {g : ℚ → α}
    {ks : List ℚ} {ps : List α}
    (h : List.Forall₂ (fun k p => f k = .ok p) ks ps)
    (hdet : ∀ k ∈ ks, f k = .ok (g k)) : ps = ks.map g := by
  induction h with
  | nil => rfl
  | @cons a b as bs hr _ ih =>
    have hb : b = g a := by
      have hga := hdet a (List.mem_cons_self a as)
      rw [hr] at hga
      exact Except.ok.inj hga
    rw [List.map_cons, hb, ih (fun k hk => hdet k (List.mem_cons_of_mem a hk))]

/-- Inversion of a successful `statistical_inefficiency` with an explicit
column: the group loop ran over all keys and the output is the
concatenation of the per-group survivors. -/
theorem si_ok_elim {F : List ℚ → ℚ} {G : List ℚ → ℚ → Bool → List ℕ}
    {data : DF} { how : String} {c : ℕ} {lower upper : Option ℚ}
    {step : Option ℕ} {cons rc force : Bool} {out : DF}
    {cal : Option (List (ℚ × ℚ))}
    (h : statistical_inefficiency F G data how (some c) lower upper step
      cons rc force = .ok (out, cal)) :
    ∃ pairs, processGroups (fun k => do
        let r ← si_process_group F G (some c) lower upper step cons force
          (lamGroup (sortIndex data) k)
        pure (k, r)) (lamKeys (sortIndex data)) = .ok pairs ∧
      pairs ≠ [] ∧ out = (pairs.map (fun p => p.2.1)).flatten := by
  have h' : (processGroups (fun k => do
      let r ← si_process_group F G (some c) lower upper step cons force
        (lamGroup (sortIndex data) k)
      pure (k, r)) (lamKeys (sortIndex data)) >>= fun pairs =>
        if (pairs.map (fun p => p.2.1)).isEmpty = true
        then Except.error concatEmptyMsg
        else pure ((pairs.map (fun p => p.2.1)).flatten,
          if rc then some (pairs.map (fun p => (p.1, p.2.2))) else none)) =
      .ok (out, cal) := h
  rw [bind_ok] at h'
  obtain ⟨pairs, hpg, hif⟩ := h'
  split at hif
  · simp at hif
  · rename_i hnemp
    have hinj := Except.ok.inj hif
    refine ⟨pairs, hpg, ?_, ?_⟩
    · intro hp
      subst hp
      simp at hnemp
    · exact (congrArg Prod.fst hinj).symm

/-- Selecting positions along a strictly increasing, in-range index list
yields a sublist. -/
theorem map_getD_sublist {α : Type} {l : List α} {d : α} {idx : List ℕ}
    (hp : idx.Pairwise (· < ·)) (hb : ∀ i ∈ idx, i < l.length) :
    List.Sublist (idx.map (fun i => l.getD i d)) l := by
  have hA : (idx.pmap (fun i hi => (⟨i, hi⟩ : Fin l.length)) hb).map
      (fun i : Fin l.length => l[i]) = idx.map (fun i => l.getD i d) := by
    rw [List.map_pmap]
    calc idx.pmap (fun i hi => l[(⟨i, hi⟩ : Fin l.length)]) hb
        = idx.pmap (fun i _ => l.getD i d) hb := by
          apply List.pmap_congr
          intro i _ h1 _
          exact (List.getD_eq_getElem l d h1).symm
      _ = idx.map (fun i => l.getD i d) := List.pmap_eq_map _ _ _ _
  have hB : (idx.pmap (fun i hi => (⟨i, hi⟩ : Fin l.length)) hb).Pairwise (· < ·) := by
    rw [List.pairwise_pmap]
    exact hp.imp (fun hlt => fun h1 h2 => Fin.mk_lt_mk.2 hlt)
  rw [← hA]
  exact List.map_getElem_sublist hB

/-- The conservative stride `ceil(g)` is at least one when `g ≥ 1`. -/
theorem stride_pos {g : ℚ} (hg : 1 ≤ g) : 1 ≤ (⌈g⌉).toNat := by
  have h1 : (1 : ℤ) ≤ ⌈g⌉ := by
    have := Int.ceil_le_ceil hg
    rwa [Int.ceil_one] at this
  omega

/-- Rounding is monotone along multiples of a nonnegative stride. -/
theorem rnd_mono {g : ℚ} (hg : 0 ≤ g) {m n : ℕ} (h : m ≤ n) :
    rnd ((m : ℚ) * g) ≤ rnd ((n : ℚ) * g) := by
  unfold rnd
  have hmn : (m : ℚ) * g ≤ (n : ℚ) * g :=
    mul_le_mul_of_nonneg_right (by exact_mod_cast h) hg
  exact Int.floor_le_floor (by linarith)

/-- Rounded multiples of a nonnegative stride are nonnegative. -/
theorem rnd_nonneg {g : ℚ} (hg : 0 ≤ g) (n : ℕ) : 0 ≤ rnd ((n : ℚ) * g) := by
  unfold rnd
  have h0 : (0 : ℚ) ≤ (n : ℚ) * g := mul_nonneg (by positivity) hg
  have := Int.floor_le_floor (show (0 : ℚ) ≤ (n : ℚ) * g + 1 / 2 by linarith)
  simpa using this

/-- Elements of `range(0, N, c)` are below `N`. -/
theorem cons_index_lt {N c j : ℕ} (hc : 1 ≤ c) (hj : j < (N + c - 1) / c) :
    j * c < N := by
  have h1 : ((N + c - 1) / c) * c ≤ N + c - 1 := Nat.div_mul_le_self _ _
  have h2 : (j + 1) * c ≤ ((N + c - 1) / c) * c :=
    Nat.mul_le_mul_right _ hj
  rw [Nat.succ_mul] at h2
  omega

/-- The spec-modelled subsample positions are in range when `g ≥ 1`. -/
theorem subIdx_lt {N : ℕ} {g : ℚ} {cons : Bool} (hg : 1 ≤ g) :
    ∀ i ∈ subsampleIndicesSpec N g cons, i < N := by
  intro i hi
  unfold subsampleIndicesSpec at hi
  split at hi
  · rw [List.mem_map] at hi
    obtain ⟨j, hj, rfl⟩ := hi
    rw [List.mem_range] at hj
    exact cons_index_lt (stride_pos hg) hj
  · have hi' := (List.destutter_sublist _ _).subset hi
    rw [List.mem_filter] at hi'
    simpa using hi'.2

/-- The spec-modelled subsample positions are strictly increasing when
`g ≥ 1`. -/
theorem subIdx_pairwise_lt {N : ℕ} {g : ℚ} {cons : Bool} (hg : 1 ≤ g) :
    (subsampleIndicesSpec N g cons).Pairwise (· < ·) := by
  unfold subsampleIndicesSpec
  split
  · rw [List.pairwise_map]
    refine (List.pairwise_lt_range _).imp ?_
    intro a b hab
    have hc := stride_pos hg
    exact Nat.mul_lt_mul_of_lt_of_le hab (le_refl _) (by omega)
  · have hg0 : (0 : ℚ) ≤ g := le_trans (by norm_num) hg
    have hmap : ((List.range N).map (fun (n : ℕ) => (rnd ((n : ℚ) * g)).toNat)).Pairwise (· ≤ ·) := by
      rw [List.pairwise_map]
      refine (List.pairwise_lt_range _).imp ?_
      intro a b hab
      have := rnd_mono hg0 (le_of_lt hab)
      omega
    have hfil : (((List.range N).map (fun (n : ℕ) => (rnd ((n : ℚ) * g)).toNat)).filter
        (fun t => t < N)).Pairwise (· ≤ ·) := hmap.filter _
    have hle : ((((List.range N).map (fun (n : ℕ) => (rnd ((n : ℚ) * g)).toNat)).filter
        (fun t => t < N)).destutter (· ≠ ·)).Pairwise (· ≤ ·) :=
      hfil.sublist (List.destutter_sublist _ _)
    have hne : ((((List.range N).map (fun (n : ℕ) => (rnd ((n : ℚ) * g)).toNat)).filter
        (fun t => t < N)).destutter (· ≠ ·)).Chain' (· ≠ ·) :=
      List.destutter_is_chain' _ _
    have hchlt : ((((List.range N).map (fun (n : ℕ) => (rnd ((n : ℚ) * g)).toNat)).filter
        (fun t => t < N)).destutter (· ≠ ·)).Chain' (· < ·) := by
      rw [List.chain'_iff_get] at hne ⊢
      have hle' := hle.chain'
      rw [List.chain'_iff_get] at hle'
      intro i h
      exact lt_of_le_of_ne (hle' i h) (hne i h)
    rw [List.chain'_iff_pairwise] at hchlt
    exact hchlt

/-- Concatenation of pointwise sublists is a sublist. -/
theorem flatten_map_sublist {fa fb : ℚ → DF} : ∀ {keys : List ℚ},
    (∀ kk ∈ keys, List.Sublist (fa kk) (fb kk)) →
    List.Sublist ((keys.map fa).flatten) ((keys.map fb).flatten) := by
  intro keys
  induction keys with
  | nil =>
    intro _
    simp
  | cons k ks ih =>
    intro h
    simp only [List.map_cons, List.flatten_cons]
    exact (h k (List.mem_cons_self k ks)).append
      (ih (fun kk hkk => h kk (List.mem_cons_of_mem k hkk)))

/-- Filtering the concatenated groups at one key keeps strictly ascending
times when each group's rows carry its key and have strictly ascending
times. -/
theorem flatten_filter_time_lt {f : ℚ → DF} {k : ℚ} : ∀ {keys : List ℚ},
    keys.Nodup →
    (∀ kk ∈ keys, (∀ r ∈ f kk, r.lam = kk) ∧
      ((f kk).map Row.time).Pairwise (· < ·)) →
    ((((keys.map f).flatten).filter (fun r => r.lam == k)).map Row.time).Pairwise
      (· < ·) := by
  intro keys
  induction keys with
  | nil =>
    intro _ _
    simp
  | cons kk ks ih =>
    intro hnd h
    simp only [List.map_cons, List.flatten_cons, List.filter_append]
    by_cases hk : kk = k
    · subst hk
      have h1 : (f kk).filter (fun r => r.lam == kk) = f kk :=
        List.filter_eq_self.2
          (fun r hr => by simp [(h kk (List.mem_cons_self kk ks)).1 r hr])
      have h2 : ((ks.map f).flatten).filter (fun r => r.lam == kk) = [] := by
        rw [List.filter_eq_nil_iff]
        intro r hr
        rw [List.mem_flatten] at hr
        obtain ⟨part, hpart, hrp⟩ := hr
        rw [List.mem_map] at hpart
        obtain ⟨kj, hkj, rfl⟩ := hpart
        have hrl : r.lam = kj := (h kj (List.mem_cons_of_mem _ hkj)).1 r hrp
        have hne : kj ≠ kk := fun he => (List.nodup_cons.1 hnd).1 (he ▸ hkj)
        simp [hrl, hne]
      rw [h1, h2, List.append_nil]
      exact (h kk (List.mem_cons_self kk ks)).2
    · have h1 : (f kk).filter (fun r => r.lam == k) = [] := by
        rw [List.filter_eq_nil_iff]
        intro r hr
        have hrl : r.lam = kk := (h kk (List.mem_cons_self kk ks)).1 r hr
        simp [hrl, hk]
      rw [h1, List.nil_append]
      exact ih (List.nodup_cons.1 hnd).2
        (fun kj hkj => h kj (List.mem_cons_of_mem _ hkj))

/-- Filtering two concatenations of per-key groups at one key preserves a
pointwise length bound when each group's rows carry its key. -/
theorem flatten_filter_length_le {fa fb : ℚ → DF} {k : ℚ} : ∀ {keys : List ℚ},
    (∀ kk ∈ keys, (fa kk).length ≤ (fb kk).length ∧
      (∀ r ∈ fa kk, r.lam = kk) ∧ (∀ r ∈ fb kk, r.lam = kk)) →
    (((keys.map fa).flatten).filter (fun r => r.lam == k)).length ≤
      (((keys.map fb).flatten).filter (fun r => r.lam == k)).length := by
  intro keys
  induction keys with
  | nil =>
    intro _
    simp
  | cons kk ks ih =>
    intro h
    simp only [List.map_cons, List.flatten_cons, List.filter_append,
      List.length_append]
    have hhead : ((fa kk).filter (fun r => r.lam == k)).length ≤
        ((fb kk).filter (fun r => r.lam == k)).length := by
      by_cases hk : kk = k
      · subst hk
        rw [List.filter_eq_self.2
            (fun r hr => by simp [(h kk (List.mem_cons_self kk ks)).2.1 r hr]),
          List.filter_eq_self.2
            (fun r hr => by simp [(h kk (List.mem_cons_self kk ks)).2.2 r hr])]
        exact (h kk (List.mem_cons_self kk ks)).1
      · rw [show (fa kk).filter (fun r => r.lam == k) = [] from
            List.filter_eq_nil_iff.2 (fun r hr => by
              simp [(h kk (List.mem_cons_self kk ks)).2.1 r hr, hk]),
          show (fb kk).filter (fun r => r.lam == k) = [] from
            List.filter_eq_nil_iff.2 (fun r hr => by
              simp [(h kk (List.mem_cons_self kk ks)).2.2 r hr, hk])]
    exact Nat.add_le_add hhead
      (ih (fun kj hkj => h kj (List.mem_cons_of_mem _ hkj)))

/-- `slicing` succeeds with the concatenation of the per-group slice values
when every group's `sliceGroup` succeeds. -/
theorem slicing_ok_of_groups {data : DF} {lower upper : Option ℚ}
    {step : Option ℕ} (hkeys : lamKeys (sortIndex data) ≠ [])
    (h : ∀ k ∈ lamKeys (sortIndex data),
      sliceGroup lower upper step false (lamGroup (sortIndex data) k) =
        .ok (locSliceVal lower upper step (lamGroup (sortIndex data) k))) :
    slicing data lower upper step false =
      .ok ((lamKeys (sortIndex data)).map
        (fun k => locSliceVal lower upper step (lamGroup (sortIndex data) k))).flatten := by
  have hpg := processGroups_map h
  show (processGroups
      (fun k => sliceGroup lower upper step false (lamGroup (sortIndex data) k))
      (lamKeys (sortIndex data)) >>= fun resdata =>
        if resdata.isEmpty = true then Except.error concatEmptyMsg
        else pure resdata.flatten) = _
  rw [hpg]
  show (if ((lamKeys (sortIndex data)).map
      (fun k => locSliceVal lower upper step (lamGroup (sortIndex data) k))).isEmpty = true
      then Except.error concatEmptyMsg
      else pure ((lamKeys (sortIndex data)).map
        (fun k => locSliceVal lower upper step (lamGroup (sortIndex data) k))).flatten) = _
  rw [if_neg]
  · rfl
  · simp [hkeys]

/-- In a frame with ascending times, every row from position `t` on has
time at least the time at position `t`. -/
theorem pairwise_le_drop {l : DF}
    (hp : l.Pairwise (fun r s => r.time ≤ s.time)) {t : ℕ} (ht : t < l.length) :
    ∀ x ∈ l.drop t, (l.get ⟨t, ht⟩).time ≤ x.time := by
  intro x hx
  rw [List.mem_iff_getElem] at hx
  obtain ⟨i, hi, rfl⟩ := hx
  rw [List.getElem_drop]
  rcases Nat.eq_zero_or_pos i with rfl | hpos
  · simp only [Nat.add_zero]
    exact le_of_eq rfl
  · have hlen : t + i < l.length := by
      rw [List.length_drop] at hi
      omega
    exact (List.pairwise_iff_getElem.1 hp) t (t + i) ht hlen (by omega)

/-- Rounded multiples of a stride above one are strictly increasing. -/
theorem rnd_strict_mono {g : ℚ} (hg : 1 < g) {m n : ℕ} (h : m < n) :
    rnd ((m : ℚ) * g) < rnd ((n : ℚ) * g) := by
  have hg0 : (0 : ℚ) ≤ g := by linarith
  have hc : ((m : ℚ) + 1) ≤ (n : ℚ) := by exact_mod_cast h
  have hmul : ((m : ℚ) + 1) * g ≤ (n : ℚ) * g :=
    mul_le_mul_of_nonneg_right hc hg0
  have h1 : (m : ℚ) * g + 1 / 2 + 1 ≤ (n : ℚ) * g + 1 / 2 := by nlinarith
  have h2 : rnd ((m : ℚ) * g) + 1 ≤ rnd ((n : ℚ) * g) := by
    unfold rnd
    have hfa : ⌊(m : ℚ) * g + 1 / 2 + 1⌋ = ⌊(m : ℚ) * g + 1 / 2⌋ + 1 := by
      have hint := Int.floor_add_int ((m : ℚ) * g + 1 / 2) 1
      rwa [show (((1 : ℤ) : ℚ)) = (1 : ℚ) by norm_num] at hint
    calc ⌊(m : ℚ) * g + 1 / 2⌋ + 1 = ⌊(m : ℚ) * g + 1 / 2 + 1⌋ := hfa.symm
      _ ≤ ⌊(n : ℚ) * g + 1 / 2⌋ := Int.floor_le_floor h1
  omega

/-- The conservative branch of the spec-modelled subsample positions. -/
theorem subIdx_true_eq (N : ℕ) (g : ℚ) :
    subsampleIndicesSpec N g true =
      (List.range ((N + (⌈g⌉).toNat - 1) / (⌈g⌉).toNat)).map
        (fun i => i * (⌈g⌉).toNat) := rfl

/-- The fractional branch of the spec-modelled subsample positions. -/
theorem subIdx_false_eq (N : ℕ) (g : ℚ) :
    subsampleIndicesSpec N g false =
      ((((List.range N).map (fun (n : ℕ) => (rnd ((n : ℚ) * g)).toNat)).filter
        (fun t => t < N)).destutter (· ≠ ·)) := rfl

/-- Filtering a range keeps at least the first `k` positions when all of
them satisfy the predicate. -/
theorem le_length_filter_range {p : ℕ → Bool} {k N : ℕ} (hkN : k ≤ N)
    (hall : ∀ n < k, p n = true) : k ≤ ((List.range N).filter p).length := by
  have hsub : List.Sublist ((List.range k).filter p) ((List.range N).filter p) :=
    (List.range_sublist.2 hkN).filter p
  have hfull : (List.range k).filter p = List.range k :=
    List.filter_eq_self.2 (fun n hn => hall n (List.mem_range.1 hn))
  have hlen := hsub.length_le
  rw [hfull, List.length_range] at hlen
  exact hlen

/-- For `g > 1` the uniform ceil-stride index set is never larger than the
fractional-stride index set. -/
theorem subIdx_length_le {N : ℕ} {g : ℚ} (hg : 1 < g) :
    (subsampleIndicesSpec N g true).length ≤
      (subsampleIndicesSpec N g false).length := by
  have hg0 : (0 : ℚ) ≤ g := by linarith
  have hcZ : (1 : ℤ) < ⌈g⌉ := by
    have h1 : (1 : ℚ) < (⌈g⌉ : ℚ) := lt_of_lt_of_le hg (Int.le_ceil g)
    exact_mod_cast h1
  have hc1 : 1 ≤ (⌈g⌉).toNat := by omega
  have hgc : g ≤ ((⌈g⌉).toNat : ℚ) := by
    have h1 : g ≤ (⌈g⌉ : ℚ) := Int.le_ceil g
    have h2 : ((⌈g⌉).toNat : ℤ) = ⌈g⌉ := Int.toNat_of_nonneg (by omega)
    calc g ≤ (⌈g⌉ : ℚ) := h1
      _ = (((⌈g⌉).toNat : ℤ) : ℚ) := by rw [h2]
      _ = ((⌈g⌉).toNat : ℚ) := by push_cast; ring
  rw [subIdx_true_eq, subIdx_false_eq]
  have hpfil : (((List.range N).map
      (fun (n : ℕ) => (rnd ((n : ℚ) * g)).toNat)).filter
        (fun t => t < N)).Pairwise (· < ·) := by
    refine List.Pairwise.filter _ ?_
    rw [List.pairwise_map]
    refine (List.pairwise_lt_range _).imp ?_
    intro a b hab
    have hlt := rnd_strict_mono hg hab
    have h0 := rnd_nonneg hg0 a
    omega
  have hdes : ((((List.range N).map
      (fun (n : ℕ) => (rnd ((n : ℚ) * g)).toNat)).filter
        (fun t => t < N)).destutter (· ≠ ·)) =
      (((List.range N).map (fun (n : ℕ) => (rnd ((n : ℚ) * g)).toNat)).filter
        (fun t => t < N)) :=
    List.destutter_of_chain' _ _ (hpfil.chain'.imp (fun a b h => Nat.ne_of_lt h))
  have hkN : (N + (⌈g⌉).toNat - 1) / (⌈g⌉).toNat ≤ N := by
    have hNc : N ≤ N * (⌈g⌉).toNat := Nat.le_mul_of_pos_right N (by omega)
    have hlt : N + (⌈g⌉).toNat - 1 < (N + 1) * (⌈g⌉).toNat := by
      rw [Nat.succ_mul]
      omega
    have hdiv := (Nat.div_lt_iff_lt_mul (show 0 < (⌈g⌉).toNat by omega)).2 hlt
    omega
  have hall : ∀ n < (N + (⌈g⌉).toNat - 1) / (⌈g⌉).toNat,
      (rnd ((n : ℚ) * g)).toNat < N := by
    intro n hn
    have hnc : n * (⌈g⌉).toNat < N := cons_index_lt hc1 hn
    have hq1 : ((rnd ((n : ℚ) * g) : ℤ) : ℚ) ≤ (n : ℚ) * g + 1 / 2 :=
      Int.floor_le _
    have hq2 : (n : ℚ) * g ≤ (n : ℚ) * ((⌈g⌉).toNat : ℚ) :=
      mul_le_mul_of_nonneg_left hgc (by positivity)
    have hq3 : (n : ℚ) * ((⌈g⌉).toNat : ℚ) ≤ (N : ℚ) - 1 := by
      have h' : (n * (⌈g⌉).toNat) + 1 ≤ N := hnc
      have h'' : ((n * (⌈g⌉).toNat : ℕ) : ℚ) + 1 ≤ (N : ℚ) := by
        exact_mod_cast h'
      push_cast at h''
      linarith
    have hq4 : ((rnd ((n : ℚ) * g) : ℤ) : ℚ) < (N : ℚ) := by linarith
    have hq5 : rnd ((n : ℚ) * g) < (N : ℤ) := by exact_mod_cast hq4
    omega
  rw [hdes, List.filter_map, List.length_map, List.length_map,
    List.length_range]
  exact le_length_filter_range hkN (fun n hn => by simpa using hall n hn)
theorem siGroupVal_fst (F : List ℚ → ℚ) (G : List ℚ → ℚ → Bool → List ℕ)
    (c : ℕ) (lower upper : Option ℚ) (step : Option ℕ) (cons : Bool) (g : DF) :
    (siGroupVal F G c lower upper step cons g).1 =
      (G ((locSliceVal lower upper step g).map (fun r => r.vals.getD c 0))
        (F ((locSliceVal lower upper step g).map (fun r => r.vals.getD c 0)))
        cons).map (fun i => (locSliceVal lower upper step g).getD i dummyRow) := rfl

/-- With the spec-modelled subsample routine and a collaborator honouring
`g ≥ 1`, the surviving rows of one group form a sublist of the sliced
group. -/
theorem siGroupVal_rows_sublist {F : List ℚ → ℚ} (hF : ∀ s, 1 ≤ F s)
    (c : ℕ) (lower upper : Option ℚ) (step : Option ℕ) (cons : Bool)
    (g : DF) :
    List.Sublist
      (siGroupVal F subsampleCorrelatedDataSpec c lower upper step cons g).1
      (locSliceVal lower upper step g) := by
  rw [siGroupVal_fst]
  apply map_getD_sublist
  · exact subIdx_pairwise_lt (hF _)
  · intro i hi
    have h := subIdx_lt (hF _) i hi
    rwa [List.length_map] at h

/-- A successful `statistical_inefficiency` call with an explicit column
determines everything: the keys are nonempty, the output is the
concatenation over keys of the per-group `siGroupVal` survivors, and every
group's `sliceGroup` succeeds with its slice value. -/
theorem si_groups_facts {F : List ℚ → ℚ} {data : DF} { how : String} {c : ℕ}
    {lower upper : Option ℚ} {step : Option ℕ} {cons rc force : Bool}
    {out : DF} {cal : Option (List (ℚ × ℚ))}
    (hok : statistical_inefficiency F subsampleCorrelatedDataSpec data how
      (some c) lower upper step cons rc force = .ok (out, cal)) :
    lamKeys (sortIndex data) ≠ [] ∧
    out = ((lamKeys (sortIndex data)).map (fun kk =>
      (siGroupVal F subsampleCorrelatedDataSpec c lower upper step cons
        (lamGroup (sortIndex data) kk)).1)).flatten ∧
    (∀ kk ∈ lamKeys (sortIndex data),
      sliceGroup lower upper step false (lamGroup (sortIndex data) kk) =
        .ok (locSliceVal lower upper step (lamGroup (sortIndex data) kk))) := by
  obtain ⟨pairs, hpg, hpne, hout⟩ := si_ok_elim hok
  have hforall := processGroups_ok_iff.1 hpg
  have hkeysne : lamKeys (sortIndex data) ≠ [] := by
    intro h0
    rw [h0, List.forall₂_nil_left_iff] at hforall
    exact hpne hforall
  have hgfacts : ∀ kk ∈ lamKeys (sortIndex data),
      lamGroup (sortIndex data) kk ≠ [] ∧
      (lamGroup (sortIndex data) kk).Pairwise lexLE ∧
      ∀ r ∈ lamGroup (sortIndex data) kk, r.lam = kk := by
    intro kk hkk
    refine ⟨?_, ?_, fun r hr => lamGroup_lam_eq hr⟩
    · obtain ⟨r, hr, hrl⟩ := mem_lamKeys.1 hkk
      exact List.ne_nil_of_mem (mem_lamGroup.2 ⟨hr, hrl⟩)
    · exact (sortIndex_sorted data).sublist (lamGroup_sublist _ _)
  have hpercall : ∀ kk ∈ lamKeys (sortIndex data), ∃ r,
      si_process_group F subsampleCorrelatedDataSpec (some c) lower upper
        step cons force (lamGroup (sortIndex data) kk) = .ok r := by
    intro kk hkk
    obtain ⟨p, hp⟩ := forall₂_mem_left hforall kk hkk
    rw [bind_ok] at hp
    obtain ⟨r, hr, _⟩ := hp
    exact ⟨r, hr⟩
  have hsgall : ∀ kk ∈ lamKeys (sortIndex data),
      sliceGroup lower upper step false (lamGroup (sortIndex data) kk) =
        .ok (locSliceVal lower upper step (lamGroup (sortIndex data) kk)) := by
    intro kk hkk
    obtain ⟨r, hr⟩ := hpercall kk hkk
    obtain ⟨hg1, hg2, hg3⟩ := hgfacts kk hkk
    exact (si_group_ok_val hg1 hg2 hg3 hr).2
  have hdet : ∀ kk ∈ lamKeys (sortIndex data), (do
      let r ← si_process_group F subsampleCorrelatedDataSpec (some c) lower
        upper step cons force (lamGroup (sortIndex data) kk)
      pure (kk, r) : Except String (ℚ × (DF × ℚ))) =
      .ok (kk, siGroupVal F subsampleCorrelatedDataSpec c lower upper step
        cons (lamGroup (sortIndex data) kk)) := by
    intro kk hkk
    obtain ⟨r, hr⟩ := hpercall kk hkk
    obtain ⟨hg1, hg2, hg3⟩ := hgfacts kk hkk
    have hval := (si_group_ok_val hg1 hg2 hg3 hr).1
    rw [hval] at hr
    show (si_process_group F subsampleCorrelatedDataSpec (some c) lower upper
      step cons force (lamGroup (sortIndex data) kk) >>= fun r =>
        pure (kk, r)) = _
    rw [hr]
    rfl
  have hpairs := forall₂_ok_eq_map hforall hdet
  refine ⟨hkeysne, ?_, hsgall⟩
  rw [hout, hpairs, List.map_map]
  rfl

/-- C7.  With the subsample-index routine modelled from the spec and an
inefficiency collaborator honouring the `g ≥ 1` contract, the rows that
`statistical_inefficiency` returns for any lambda-state group form a
sublist of the rows that `slicing` returns for the same bounds, and their
time values are strictly increasing within the group. -/
theorem claim_C7 (F : List ℚ → ℚ) (data : DF) ( how : String) (c : ℕ)
    (lower upper : Option ℚ) (step : Option ℕ)
    (conservative rc force : Bool) (out : DF) (cal : Option (List (ℚ × ℚ)))
    (k : ℚ) (hF : ∀ series, 1 ≤ F series)
    (hok : statistical_inefficiency F subsampleCorrelatedDataSpec data how
      (some c) lower upper step conservative rc force = .ok (out, cal)) :
    ∃ sliced, slicing data lower upper step false = .ok sliced ∧
      List.Sublist (out.filter (fun r => r.lam == k))
        (sliced.filter (fun r => r.lam == k)) ∧
      ((out.filter (fun r => r.lam == k)).map Row.time).Pairwise (· < ·) := by
  obtain ⟨hkeysne, hout, hsgall⟩ := si_groups_facts hok
  have hrowsub : ∀ kk ∈ lamKeys (sortIndex data),
      List.Sublist (siGroupVal F subsampleCorrelatedDataSpec c lower upper
        step conservative (lamGroup (sortIndex data) kk)).1
        (locSliceVal lower upper step (lamGroup (sortIndex data) kk)) :=
    fun kk _ => siGroupVal_rows_sublist hF c lower upper step conservative _
  have hgsfacts : ∀ kk ∈ lamKeys (sortIndex data),
      (∀ r ∈ locSliceVal lower upper step (lamGroup (sortIndex data) kk),
        r.lam = kk) ∧
      (locSliceVal lower upper step (lamGroup (sortIndex data) kk)).Pairwise
        (fun r s => r.time < s.time) := by
    intro kk hkk
    have hsub : List.Sublist
        (locSliceVal lower upper step (lamGroup (sortIndex data) kk))
        (lamGroup (sortIndex data) kk) := sliceGroup_ok_sublist (hsgall kk hkk)
    constructor
    · intro r hr
      exact lamGroup_lam_eq (hsub.subset hr)
    · have hnodup := sliceGroup_ok_nodup (hsgall kk hkk)
      have hsorted : (locSliceVal lower upper step
          (lamGroup (sortIndex data) kk)).Pairwise lexLE :=
        (sortIndex_sorted data).sublist (hsub.trans (lamGroup_sublist _ _))
      exact pairwise_time_lt (pairwise_time_le_of_sorted hsorted) hnodup
  refine ⟨_, slicing_ok_of_groups hkeysne hsgall, ?_, ?_⟩
  · rw [hout]
    apply List.Sublist.filter
    exact flatten_map_sublist hrowsub
  · rw [hout]
    apply flatten_filter_time_lt (lamKeys_nodup _)
    intro kk hkk
    constructor
    · intro r hr
      exact (hgsfacts kk hkk).1 r ((hrowsub kk hkk).subset hr)
    · rw [List.pairwise_map]
      exact ((hgsfacts kk hkk).2).sublist (hrowsub kk hkk)

/-- A `Forall₂` gives, for each right element, a related left element. -/
theorem forall₂_mem_right {α : Type} {R : ℚ → α → Prop} {ks : List ℚ}
    {ps : List α} (h : List.Forall₂ R ks ps) : ∀ p ∈ ps, ∃ kk ∈ ks, R kk p := by
  induction h with
  | nil =>
    intro p hp
    simp at hp
  | @cons a b as bs hr _ ih =>
    intro p hp
    rcases List.mem_cons.1 hp with rfl | hp'
    · exact ⟨a, List.mem_cons_self a as, hr⟩
    · obtain ⟨kk, hkk, hrel⟩ := ih p hp'
      exact ⟨kk, List.mem_cons_of_mem a hkk, hrel⟩

/-- Inversion of a successful `ed_process_group`. -/
theorem ed_group_ok_elim {detectEqF : List ℚ → ℕ × ℚ × ℚ}
    {subIdxF : List ℚ → ℚ → Bool → List ℕ} {c : ℕ} {lower upper : Option ℚ}
    {step : Option ℕ} {cons force : Bool} {g : DF} {pr : DF × (ℕ × ℚ × ℚ)}
    (h : ed_process_group detectEqF subIdxF (some c) lower upper step cons
      force g = .ok pr) :
    ∃ gs, slicing g lower upper step false = .ok gs ∧
      ilocSelect (gs.drop (detectEqF (gs.map (fun r => r.vals.getD c 0))).1)
        (subIdxF ((gs.drop (detectEqF (gs.map (fun r => r.vals.getD c 0))).1).map
          (fun r => r.vals.getD c 0))
          (detectEqF (gs.map (fun r => r.vals.getD c 0))).2.1 cons) = .ok pr.1 ∧
      pr.2 = detectEqF (gs.map (fun r => r.vals.getD c 0)) := by
  unfold ed_process_group at h
  rw [bind_ok] at h
  obtain ⟨gs, hsl, h⟩ := h
  split at h
  · simp at h
  · rw [bind_ok] at h
    obtain ⟨series, hgc, h⟩ := h
    have hser := getColumn_ok_elim hgc
    subst hser
    rw [bind_ok] at h
    obtain ⟨series_t, hgct, h⟩ := h
    have hsert := getColumn_ok_elim hgct
    subst hsert
    rw [bind_ok] at h
    obtain ⟨rows, hil, h⟩ := h
    have hpr := Except.ok.inj h
    refine ⟨gs, hsl, ?_, ?_⟩
    · rw [← hpr]
      exact hil
    · rw [← hpr]

/-- Inversion of a successful `equilibrium_detection`. -/
theorem ed_ok_elim {detectEqF : List ℚ → ℕ × ℚ × ℚ}
    {subIdxF : List ℚ → ℚ → Bool → List ℕ} {data : DF} { how : String}
    {c : ℕ} {lower upper : Option ℚ} {step : Option ℕ} {cons rc force : Bool}
    {out : DF} {cal : Option EDCalc}
    (h : equilibrium_detection detectEqF subIdxF data how (some c) lower
      upper step cons rc force = .ok (out, cal)) :
    ∃ triples, processGroups (fun k => do
        let r ← ed_process_group detectEqF subIdxF (some c) lower upper step
          cons force (lamGroup (sortIndex data) k)
        pure (k, r)) (lamKeys (sortIndex data)) = .ok triples ∧
      out = (triples.map (fun p => p.2.1)).flatten := by
  have h' : (processGroups (fun k => do
      let r ← ed_process_group detectEqF subIdxF (some c) lower upper step
        cons force (lamGroup (sortIndex data) k)
      pure (k, r)) (lamKeys (sortIndex data)) >>= fun triples =>
        if (triples.map (fun p => p.2.1)).isEmpty = true
        then Except.error concatEmptyMsg
        else pure ((triples.map (fun p => p.2.1)).flatten,
          if rc then some (EDCalc.mk
            (triples.map (fun p => (p.1, p.2.2.2.1)))
            (triples.map (fun p => (p.1, p.2.2.2.1)))
            (triples.map (fun p => (p.1, p.2.2.2.1)))) else none)) =
      .ok (out, cal) := h
  rw [bind_ok] at h'
  obtain ⟨triples, hpg, hif⟩ := h'
  split at hif
  · simp at hif
  · have hinj := Except.ok.inj hif
    exact ⟨triples, hpg, (congrArg Prod.fst hinj).symm⟩

/-- C8.  For every lambda-state group, `equilibrium_detection` never
returns a row whose time is earlier than the time at the equilibration
cutoff position `t` of the pre-truncation (sliced, time-sorted) group: the
rows before position `t` are discarded before the subsample positions are
taken.  Universally in both collaborators. -/
theorem claim_C8 (detectEqF : List ℚ → ℕ × ℚ × ℚ)
    (subIdxF : List ℚ → ℚ → Bool → List ℕ) (data : DF) ( how : String)
    (c : ℕ) (lower upper : Option ℚ) (step : Option ℕ)
    (conservative rc force : Bool) (out : DF) (cal : Option EDCalc) (k : ℚ)
    (hok : equilibrium_detection detectEqF subIdxF data how (some c) lower
      upper step conservative rc force = .ok (out, cal)) :
    ∀ r ∈ out, r.lam = k →
    ∀ ht : (detectEqF ((locSliceVal lower upper step
        (lamGroup (sortIndex data) k)).map (fun row => row.vals.getD c 0))).1 <
      (locSliceVal lower upper step (lamGroup (sortIndex data) k)).length,
    ((locSliceVal lower upper step (lamGroup (sortIndex data) k)).get
      ⟨(detectEqF ((locSliceVal lower upper step
        (lamGroup (sortIndex data) k)).map (fun row => row.vals.getD c 0))).1,
        ht⟩).time ≤ r.time := by
  intro r hr hlam ht
  obtain ⟨triples, hpg, hout⟩ := ed_ok_elim hok
  have hforall := processGroups_ok_iff.1 hpg
  rw [hout, List.mem_flatten] at hr
  obtain ⟨part, hpart, hrpart⟩ := hr
  rw [List.mem_map] at hpart
  obtain ⟨tri, htri, rfl⟩ := hpart
  obtain ⟨kk, hkk, htricall⟩ := forall₂_mem_right hforall tri htri
  rw [bind_ok] at htricall
  obtain ⟨rr, hrr, hpure⟩ := htricall
  have htr : (kk, rr) = tri := Except.ok.inj hpure
  rw [← htr] at hrpart
  have hgne : lamGroup (sortIndex data) kk ≠ [] := by
    obtain ⟨x, hx, hxl⟩ := mem_lamKeys.1 hkk
    exact List.ne_nil_of_mem (mem_lamGroup.2 ⟨hx, hxl⟩)
  have hgsort : (lamGroup (sortIndex data) kk).Pairwise lexLE :=
    (sortIndex_sorted data).sublist (lamGroup_sublist _ _)
  have hgall : ∀ x ∈ lamGroup (sortIndex data) kk, x.lam = kk :=
    fun x hx => lamGroup_lam_eq hx
  obtain ⟨gs, hsl, hil, _⟩ := ed_group_ok_elim hrr
  rw [slicing_group_eq hgne hgsort hgall] at hsl
  obtain ⟨hval, _, _⟩ := sliceGroup_ok_elim hsl
  subst hval
  obtain ⟨hrows, hbounds⟩ := ilocSelect_ok_elim hil
  have hrdrop : r ∈ (locSliceVal lower upper step
      (lamGroup (sortIndex data) kk)).drop
      ((detectEqF ((locSliceVal lower upper step
        (lamGroup (sortIndex data) kk)).map (fun row => row.vals.getD c 0))).1) := by
    rw [hrows, List.mem_map] at hrpart
    obtain ⟨i, hi, rfl⟩ := hrpart
    have hib := hbounds i hi
    rw [List.getD_eq_getElem _ _ hib]
    exact List.getElem_mem hib
  have hrgs : r ∈ locSliceVal lower upper step (lamGroup (sortIndex data) kk) :=
    List.drop_subset _ _ hrdrop
  have hkkk : kk = k := by
    rw [← hlam]
    exact (lamGroup_lam_eq ((sliceGroup_ok_sublist hsl).subset hrgs)).symm
  subst hkkk
  have hle : (locSliceVal lower upper step
      (lamGroup (sortIndex data) kk)).Pairwise (fun a b => a.time ≤ b.time) :=
    pairwise_time_le_of_sorted ((sortIndex_sorted data).sublist
      ((sliceGroup_ok_sublist hsl).trans (lamGroup_sublist _ _)))
  exact pairwise_le_drop hle ht r hrdrop

/-- Witness for C8: a cutoff collaborator answering `t = 1` on `dfPlain`;
the returned row at time 1 is not earlier than the time at position 1 of
the sliced group. -/
theorem claim_C8_witness :
    ((locSliceVal none none none (lamGroup (sortIndex dfPlain) 0)).get
      ⟨1, by decide⟩).time ≤ (1 : ℚ) :=
  claim_C8 (fun _ => (1, 1, 1)) (fun s _ _ => List.range s.length) dfPlain
    "auto" 0 none none none true false false [⟨1, 0, [2]⟩, ⟨2, 0, [3]⟩] none 0
    (by rfl) ⟨1, 0, [2]⟩ (by decide) (by rfl) (by decide)

/-- C1.  The spec requires the per-lambda-group analysis loop of
`statistical_inefficiency` to run whether or not `column` is given.  In the
source the loop is guarded by `if column:`, so with `column` unset no group
is processed and the final `pd.concat` of an empty list raises `ValueError`
instead — for every input frame, every collaborator pair and every other
argument combination. -/
theorem claim_C1 (statInefF : List ℚ → ℚ)
    (subIdxF : List ℚ → ℚ → Bool → List ℕ) (data : DF) ( how : String)
    (lower upper : Option ℚ) (step : Option ℕ)
    (conservative return_calculated force : Bool) :
    statistical_inefficiency statInefF subIdxF data how none lower upper
      step conservative return_calculated force = .error concatEmptyMsg := rfl

/-- C2.  The spec says `force=True` suppresses every duplicate-timestamp
error.  But `statistical_inefficiency` calls the inner `slicing` without
forwarding `force`, so on a group with duplicated times the call with
`force=True` still fails with the duplicate-time `KeyError` raised inside
`slicing`. -/
theorem claim_C2 :
    statistical_inefficiency (fun _ => 2) (fun _ _ _ => []) dfDup "auto"
      (some 0) none none none true false true = .error dupMsgSlicing := by
  rfl

/-- C3.  On a group that is empty after pre-slicing (all times below the
`lower` bound), `statistical_inefficiency` hands the empty observable series
to the collaborator and records the collaborator's return value as the
group's `statinef` in the diagnostics — here a collaborator answering `99`
on the empty series, so the record holds `99`, not an undefined/NaN
marker as the spec requires. -/
theorem claim_C3 :
    statistical_inefficiency (fun s => if s.isEmpty then 99 else 2)
      subsampleCorrelatedDataSpec dfLow "auto" (some 0) (some 10) none none
      true true false = .ok ([], some [(0, 99)]) := by
  rfl

/-- C4.  The spec says that with `how='sum'` and no explicit `column` the
observable is the row-wise sum of the group's columns.  The source never
reads `how`: `statistical_inefficiency` skips its loop entirely (empty
`pd.concat`), and `equilibrium_detection` selects `group_s[None]`, a
`KeyError`.  No sum is ever formed. -/
theorem claim_C4 :
    statistical_inefficiency (fun _ => 2) (fun _ _ _ => []) dfPlain "sum"
      none none none none true false false = .error concatEmptyMsg ∧
    equilibrium_detection (fun _ => (0, 2, 2)) (fun _ _ _ => []) dfPlain
      "sum" none none none none true false false = .error keyErrColumn := by
  constructor
  · rfl
  · rfl

/-- C5.  The spec requires the diagnostics of `equilibrium_detection` to
report the collaborator's three outputs independently.  The source stores
`statinef` under all three keys: with a collaborator returning
`(t, g, Neff) = (1, 3/2, 7)`, the record holds `3/2` under `'t'`,
`'statinef'` and `'Neff_max'`, and `3/2` differs from both the cutoff `1`
and the effective sample size `7`. -/
theorem claim_C5 :
    equilibrium_detection (fun _ => (1, 3 / 2, 7)) (fun _ _ _ => []) dfPlain
      "auto" (some 0) none none none true true false =
      .ok ([], some ⟨[(0, 3 / 2)], [(0, 3 / 2)], [(0, 3 / 2)]⟩) ∧
    ((3 : ℚ) / 2 ≠ (1 : ℕ)) ∧ ((3 : ℚ) / 2 ≠ 7) := by
  refine ⟨by rfl, by norm_num, by norm_num⟩

/-- C6, counterexample.  On a two-group frame with interleaved times and
unique per-group timestamps, unbounded `slicing` does NOT return the frame
in full-index sort order (it returns the groups one after the other), so
the claim's "same rows in the same order as the sorted input" fails. -/
theorem claim_C6_cex :
    ((lamGroup dfInter 0).map Row.time).Nodup ∧
    ((lamGroup dfInter 1).map Row.time).Nodup ∧
    slicing dfInter none none none false ≠ .ok (sortIndex dfInter) := by
  refine ⟨by decide, by decide, ?_⟩
  intro h
  rw [show slicing dfInter none none none false =
    .ok [⟨0, 0, [1]⟩, ⟨1, 0, [3]⟩, ⟨0, 1, [2]⟩, ⟨1, 1, [4]⟩] from rfl] at h
  have hl := Except.ok.inj h
  rw [show sortIndex dfInter =
    [⟨0, 0, [1]⟩, ⟨0, 1, [2]⟩, ⟨1, 0, [3]⟩, ⟨1, 1, [4]⟩] from rfl] at hl
  exact absurd hl (by decide)

/-- C6, amended.  For every nonempty frame whose lambda-state groups have
pairwise distinct time values, unbounded `slicing` with `force = False`
succeeds and returns a table with exactly the rows of the input, ordered
group-major: ascending lambda-state key, ascending time within each key
(for a single-group table this coincides with the sorted input). -/
theorem claim_C6 (data : DF) (hne : data ≠ [])
    (hu : ∀ k ∈ lamKeys (sortIndex data),
      ((lamGroup (sortIndex data) k).map Row.time).Nodup) :
    ∃ out, slicing data none none none false = .ok out ∧
      List.Perm out data ∧ out.Pairwise lamTimeLE :=
  ⟨groupMajor data, slicing_none_eq hne hu, groupMajor_perm data,
    groupMajor_pairwise data⟩

/-- Witness for C6 at the concrete frame `dfInter`. -/
theorem claim_C6_witness :
    ∃ out, slicing dfInter none none none false = .ok out ∧
      List.Perm out dfInter ∧ out.Pairwise lamTimeLE :=
  claim_C6 dfInter (by decide) (by decide)

/-- C10.  For every frame with more than one lambda-state group and unique
per-group timestamps, unbounded `slicing` returns the group-major
rearrangement — the sorted frame's groups concatenated in ascending key
order, times ascending inside each group — and (second conjunct, concrete
two-group frame) this differs from the full-table lexicographic sort in
which time is the outermost level. -/
theorem claim_C10 :
    (∀ data : DF, (∃ r ∈ data, ∃ s ∈ data, r.lam ≠ s.lam) →
      (∀ k ∈ lamKeys (sortIndex data),
        ((lamGroup (sortIndex data) k).map Row.time).Nodup) →
      slicing data none none none false = .ok (groupMajor data)) ∧
    slicing dfInter2 none none none false ≠ .ok (sortIndex dfInter2) := by
  constructor
  · intro data hmulti hu
    obtain ⟨r, hr, _⟩ := hmulti
    exact slicing_none_eq (List.ne_nil_of_mem hr) hu
  · intro h
    rw [show slicing dfInter2 none none none false =
      .ok [⟨5, 1, [1]⟩, ⟨6, 1, [3]⟩, ⟨5, 2, [2]⟩, ⟨6, 2, [4]⟩] from rfl] at h
    have hl := Except.ok.inj h
    rw [show sortIndex dfInter2 =
      [⟨5, 1, [1]⟩, ⟨5, 2, [2]⟩, ⟨6, 1, [3]⟩, ⟨6, 2, [4]⟩] from rfl] at hl
    exact absurd hl (by decide)

/-- Witness for C10 at the concrete two-group frame `dfInter2`. -/
theorem claim_C10_witness :
    slicing dfInter2 none none none false = .ok (groupMajor dfInter2) :=
  claim_C10.1 dfInter2
    ⟨⟨5, 1, [1]⟩, by decide, ⟨5, 2, [2]⟩, by decide, by decide⟩ (by decide)

/-- Witness for C7: a constant collaborator `g = 2` on the three-row frame
`dfPlain`, conservative subsampling keeping positions 0 and 2. -/
theorem claim_C7_witness :
    ∃ sliced, slicing dfPlain none none none false = .ok sliced ∧
      List.Sublist (([⟨0, 0, [1]⟩, ⟨2, 0, [3]⟩] : DF).filter
        (fun r => r.lam == 0)) (sliced.filter (fun r => r.lam == 0)) ∧
      ((([⟨0, 0, [1]⟩, ⟨2, 0, [3]⟩] : DF).filter
        (fun r => r.lam == 0)).map Row.time).Pairwise (· < ·) :=
  claim_C7 (fun _ => 2) dfPlain "auto" 0 none none none true false false
    [⟨0, 0, [1]⟩, ⟨2, 0, [3]⟩] none 0 (fun _ => by norm_num) (by rfl)

/-- C9.  With the subsample-index routine modelled from the spec, for the
same frame, column and bounds and an inefficiency collaborator returning
`g > 1`, `statistical_inefficiency` with `conservative=True` never keeps
more rows of any lambda-state group than with `conservative=False`. -/
theorem claim_C9 (F : List ℚ → ℚ) (data : DF) ( how : String) (c : ℕ)
    (lower upper : Option ℚ) (step : Option ℕ) (rc force : Bool)
    (out_t out_f : DF) (cal_t cal_f : Option (List (ℚ × ℚ))) (k : ℚ)
    (hF : ∀ series, 1 < F series)
    (hok_t : statistical_inefficiency F subsampleCorrelatedDataSpec data how
      (some c) lower upper step true rc force = .ok (out_t, cal_t))
    (hok_f : statistical_inefficiency F subsampleCorrelatedDataSpec data how
      (some c) lower upper step false rc force = .ok (out_f, cal_f)) :
    (out_t.filter (fun r => r.lam == k)).length ≤
      (out_f.filter (fun r => r.lam == k)).length := by
  have hF1 : ∀ series, 1 ≤ F series := fun s => le_of_lt (hF s)
  obtain ⟨_, hout_t, hsg_t⟩ := si_groups_facts hok_t
  obtain ⟨_, hout_f, _⟩ := si_groups_facts hok_f
  rw [hout_t, hout_f]
  apply flatten_filter_length_le
  intro kk hkk
  have hlam : ∀ cons : Bool, ∀ r ∈ (siGroupVal F subsampleCorrelatedDataSpec
      c lower upper step cons (lamGroup (sortIndex data) kk)).1, r.lam = kk := by
    intro cons r hr
    have hr' := (siGroupVal_rows_sublist hF1 c lower upper step cons _).subset hr
    exact lamGroup_lam_eq ((sliceGroup_ok_sublist (hsg_t kk hkk)).subset hr')
  refine ⟨?_, hlam true, hlam false⟩
  rw [siGroupVal_fst, siGroupVal_fst, List.length_map, List.length_map]
  exact subIdx_length_le (hF _)

/-- Witness for C9: a constant collaborator `g = 2` on `dfLow` pre-sliced
to an empty group; both runs keep zero rows, so 0 ≤ 0. -/
theorem claim_C9_witness :
    (([] : DF).filter (fun r => r.lam == 0)).length ≤
      (([] : DF).filter (fun r => r.lam == 0)).length :=
  claim_C9 (fun _ => 2) dfLow "auto" 0 (some 10) none none false false
    [] [] none none 0 (fun _ => by norm_num) (by rfl) (by rfl)

end Subsampling
